import Mathlib

/-!
Shallow embedding of the org-chart application's core logic:

* the Zustand store's data model and mutation operations
  (`src/unnamed/part_004`, `useOrgChartStore`): `addEmployee`,
  `updateEmployee`, `deleteEmployee`, `replaceNodeData`,
  `toggleNodeCollapse`, `getVisibleNodes`, `getVisibleEdges`;
* the tidy-tree auto-layout pass (`src/unnamed/part_001`,
  `handleAutoLayout`): `buildTree`, `calculateWidth`, `setPositions`.

Coordinates are modelled as rationals (the source uses JS numbers; all
layout arithmetic is exact on the inputs considered).  Unbounded JS
recursions over the edge list (`findAllChildren`, `buildTree`,
`getDescendants`) are modelled with an explicit fuel argument set to the
length of the edge list; on acyclic edge sets (the forest invariant) this
fuel is never exhausted, so the modelled functions agree with the source,
which diverges on cyclic inputs.
-/

namespace OrgChart

/-- Employee payload (src/unnamed/part_004, `interface Employee`):
the required fields.  Optional extension fields (phone, skills, ...) play
no role in any of the verified operations. -/
structure Employee where
  id : String
  name : String
  position : String
  department : String
  email : String
  level : Int
deriving DecidableEq

/-- A 2D position, owned by the layout pass. -/
structure Position where
  x : ℚ
  y : ℚ
deriving DecidableEq

/-- A ReactFlow node (`Node<Employee>`): id, position and payload. -/
structure Node where
  id : String
  position : Position
  data : Employee
deriving DecidableEq

/-- A ReactFlow edge: directed parent→child link. -/
structure Edge where
  id : String
  source : String
  target : String
deriving DecidableEq

/-- The store state (src/unnamed/part_004, `OrgChartState`): node list,
edge list and the set (modelled as a list) of collapsed node ids. -/
structure OrgChartState where
  nodes : List Node
  edges : List Edge
  collapsedNodes : List String
deriving DecidableEq

/-- `addEmployee` (src/unnamed/part_004 lines 682-703).  The source
places the new node at a random x; the random draw is passed in as the
explicit oracle argument `rx`.  No duplicate-id check is performed by
the source. -/
def addEmployee (rx : ℚ) (employee : Employee) (parentId : Option String)
    (s : OrgChartState) : OrgChartState :=
  let newNode : Node :=
    { id := employee.id
      position := { x := rx, y := ((employee.level : ℚ) - 1) * 150 + 50 }
      data := employee }
  let newNodes := s.nodes ++ [newNode]
  let newEdges :=
    match parentId with
    | some pid =>
        s.edges ++ [{ id := "e" ++ pid ++ "-" ++ employee.id,
                      source := pid, target := employee.id }]
    | none => s.edges
  { s with nodes := newNodes, edges := newEdges }

/-- A `Partial<Employee>` merge payload: each field optionally present. -/
structure EmployeePatch where
  id : Option String := none
  name : Option String := none
  position : Option String := none
  department : Option String := none
  email : Option String := none
  level : Option Int := none

/-- JS object spread `{...node.data, ...data}` on the employee fields. -/
def mergePatch (e : Employee) (p : EmployeePatch) : Employee :=
  { id := p.id.getD e.id
    name := p.name.getD e.name
    position := p.position.getD e.position
    department := p.department.getD e.department
    email := p.email.getD e.email
    level := p.level.getD e.level }

/-- `updateEmployee` (src/unnamed/part_004): merge a partial payload into
the matching node's data. -/
def updateEmployee (id : String) (data : EmployeePatch) (s : OrgChartState) :
    OrgChartState :=
  { s with nodes := s.nodes.map (fun node =>
      if node.id = id then { node with data := mergePatch node.data data }
      else node) }

/-- The ordered children of a node, read off the edge list (the
`childrenMap` built by both the store and the layout pass: one entry per
edge, in edge-list order). -/
def childrenOf (edges : List Edge) (nodeId : String) : List String :=
  (edges.filter (fun e => e.source == nodeId)).map (fun e => e.target)

/-- `findAllChildren` inside `deleteEmployee` (src/unnamed/part_004
lines 725-737): the node itself followed by the recursively collected
descendants, in DFS order.  `fuel` models the source's unbounded
recursion; `deleteEmployee` passes `edges.length`, which suffices on
acyclic edge sets. -/
def findAllChildren (edges : List Edge) : Nat → String → List String
  | 0, nodeId => [nodeId]
  | fuel + 1, nodeId =>
      nodeId :: (childrenOf edges nodeId).flatMap (findAllChildren edges fuel)

/-- `deleteEmployee` (src/unnamed/part_004 lines 721-758): cascading
delete of the node and all its edge-descendants, plus every edge
touching any of them. -/
def deleteEmployee (id : String) (s : OrgChartState) : OrgChartState :=
  let nodesToDelete := findAllChildren s.edges s.edges.length id
  let filteredNodes := s.nodes.filter (fun node =>
    decide (node.id ∉ nodesToDelete))
  let filteredEdges := s.edges.filter (fun e =>
    decide (e.source ∉ nodesToDelete) && decide (e.target ∉ nodesToDelete))
  { s with nodes := filteredNodes, edges := filteredEdges }

/-- The vacant "空職位" sentinel payload written onto the source node by
`replaceNodeData` (src/unnamed/part_004 lines 802-813). -/
def vacantData (sourceId : String) (lvl : Int) : Employee :=
  { id := sourceId
    name := "空職位"
    position := "待分配"
    department := "待分配"
    email := ""
    level := lvl }

/-- `replaceNodeData` (src/unnamed/part_004 lines 781-821): the target
node takes a copy of the source node's payload (keeping its own id), the
source node is reset to the vacant sentinel; silent no-op if either id
is missing. -/
def replaceNodeData (sourceId targetId : String) (s : OrgChartState) :
    OrgChartState :=
  match s.nodes.find? (fun n => n.id == sourceId),
        s.nodes.find? (fun n => n.id == targetId) with
  | some sourceNode, some _ =>
      let sourceData := sourceNode.data
      { s with nodes := s.nodes.map (fun node =>
          if node.id = targetId then
            { node with data := { sourceData with id := targetId } }
          else if node.id = sourceId then
            { node with data := vacantData sourceId sourceData.level }
          else node) }
  | _, _ => s

/-- Modelled from the spec: `swapData` is absent from the source tree
(the drag flow only mentions a 替換/交換 choice in comments; the store
implements only `replaceNodeData`).  Per spec §4.2: both payloads are
exchanged in full, each node retaining its own id field, and levels stay
with the slot (each node keeps its own pre-swap level); silent no-op if
either id is missing. -/
def swapData (idA idB : String) (s : OrgChartState) : OrgChartState :=
  match s.nodes.find? (fun n => n.id == idA),
        s.nodes.find? (fun n => n.id == idB) with
  | some na, some nb =>
      { s with nodes := s.nodes.map (fun node =>
          if node.id = idA then
            { node with data :=
                { nb.data with id := idA, level := na.data.level } }
          else if node.id = idB then
            { node with data :=
                { na.data with id := idB, level := nb.data.level } }
          else node) }
  | _, _ => s

/-- `toggleNodeCollapse` (src/unnamed/part_004): flip membership of the
id in the collapsed set.  Only the collapse set changes. -/
def toggleNodeCollapse (nodeId : String) (s : OrgChartState) : OrgChartState :=
  if nodeId ∈ s.collapsedNodes then
    { s with collapsedNodes := s.collapsedNodes.filter (fun c => c != nodeId) }
  else
    { s with collapsedNodes := s.collapsedNodes ++ [nodeId] }

/-- `getDescendants` inside `getVisibleNodes` (src/unnamed/part_004
lines 849-861): strict descendants of a node, fuel-bounded as above. -/
def getDescendants (edges : List Edge) : Nat → String → List String
  | 0, _ => []
  | fuel + 1, nodeId =>
      (childrenOf edges nodeId).flatMap (fun childId =>
        childId :: getDescendants edges fuel childId)

/-- The ids hidden by the collapse set: all strict descendants of every
collapsed node. -/
def hiddenNodes (s : OrgChartState) : List String :=
  s.collapsedNodes.flatMap (fun c => getDescendants s.edges s.edges.length c)

/-- `getVisibleNodes` (src/unnamed/part_004 lines 845-873). -/
def getVisibleNodes (s : OrgChartState) : List Node :=
  s.nodes.filter (fun n => decide (n.id ∉ hiddenNodes s))

/-- `getVisibleEdges` (src/unnamed/part_004): edges whose both endpoints
are visible. -/
def getVisibleEdges (s : OrgChartState) : List Edge :=
  let visibleIds := (getVisibleNodes s).map (fun n => n.id)
  s.edges.filter (fun e =>
    decide (e.source ∈ visibleIds) && decide (e.target ∈ visibleIds))

/-! ## The layout pass (src/unnamed/part_001, `handleAutoLayout`) -/

/-- Layout configuration (src/unnamed/part_001 lines 84-86). -/
def horizontalSpacing : ℚ := 650

/-- Vertical spacing between depth levels. -/
def verticalSpacing : ℚ := 280

/-- Top margin of the layout. -/
def startY : ℚ := 100

/-- Rendered card width (src/unnamed/part_000 line 264, the node card's
`min-w-[240px]`); used only to state the horizontal-extent claims. -/
def cardWidth : ℚ := 240

/-- The layout pass's tree structure (src/unnamed/part_001 lines 92-98,
`interface TreeNode`); the mutable `width`, `x`, `y` fields are computed
by the pure functions below instead of stored. -/
inductive TreeNode where
  | mk (id : String) (children : List TreeNode)

/-- Root id of a layout tree node. -/
def TreeNode.id : TreeNode → String
  | .mk i _ => i

/-- Children of a layout tree node. -/
def TreeNode.children : TreeNode → List TreeNode
  | .mk _ cs => cs

/-- `buildTree` (src/unnamed/part_001 lines 101-108): unfold the edge
list into a tree, fuel-bounded as in the module header. -/
def buildTree (edges : List Edge) : Nat → String → TreeNode
  | 0, nodeId => .mk nodeId []
  | fuel + 1, nodeId =>
      .mk nodeId ((childrenOf edges nodeId).map (buildTree edges fuel))

mutual

/-- `calculateWidth` (src/unnamed/part_001 lines 111-124): a leaf has
width 1, an inner node the sum of its children's widths (over all
children in the edge list). -/
def calculateWidth : TreeNode → Nat
  | .mk _ [] => 1
  | .mk _ (c :: cs) => calculateWidth c + calculateWidthList cs
termination_by structural t => t

/-- Sum of `calculateWidth` over a list of sibling subtrees. -/
def calculateWidthList : List TreeNode → Nat
  | [] => 0
  | c :: cs => calculateWidth c + calculateWidthList cs
termination_by structural l => l

end

mutual

/-- `setPositions` (src/unnamed/part_001 lines 127-146): place the node
at the horizontal centre of its subtree slot, then its children below
it, as the ordered list of `nodePositions.set` calls.  A node whose id
is not in the store's node list is skipped together with its whole
subtree (the source's `if (!nodeData) return`). -/
def setPositions (nodeIds : List String) :
    TreeNode → ℚ → ℚ → List (String × ℚ × ℚ)
  | .mk i cs, left, top =>
      if i ∈ nodeIds then
        (i, left + (calculateWidth (.mk i cs) : ℚ) * horizontalSpacing / 2,
          top) ::
          setChildrenPositions nodeIds cs left (top + verticalSpacing)
      else []
termination_by structural t => t

/-- The children loop of `setPositions`: each child is placed at the
running `childLeft` offset, which advances by the child's width times
the horizontal spacing. -/
def setChildrenPositions (nodeIds : List String) :
    List TreeNode → ℚ → ℚ → List (String × ℚ × ℚ)
  | [], _, _ => []
  | c :: cs, childLeft, top =>
      setPositions nodeIds c childLeft top ++
        setChildrenPositions nodeIds cs
          (childLeft + (calculateWidth c : ℚ) * horizontalSpacing) top
termination_by structural l => l

end

/-- The root nodes: nodes with no incoming edge (the source's
`parentMap.has` test). -/
def rootNodes (s : OrgChartState) : List Node :=
  s.nodes.filter (fun n => decide (∀ e ∈ s.edges, e.target ≠ n.id))

/-- The loop over the remaining roots (src/unnamed/part_001 lines
158-167): each subsequent root subtree is placed one spacing unit to
the right of the previous one's extent. -/
def layoutRest (nodeIds : List String) (edges : List Edge) (fuel : Nat) :
    List Node → ℚ → List (String × ℚ × ℚ)
  | [], _ => []
  | root :: rest, offsetX =>
      let rootTree := buildTree edges fuel root.id
      setPositions nodeIds rootTree offsetX startY ++
        layoutRest nodeIds edges fuel rest
          (offsetX + (calculateWidth rootTree : ℚ) * horizontalSpacing +
            horizontalSpacing)

/-- The full `nodePositions` map computed by `handleAutoLayout`
(src/unnamed/part_001 lines 60-167), as the ordered list of `set`
calls: the first root's tree is centred around x = 1200, the remaining
roots follow to its right. -/
def layoutPositions (s : OrgChartState) : List (String × ℚ × ℚ) :=
  match rootNodes s with
  | [] => []
  | mainRoot :: rest =>
      let fuel := s.edges.length
      let nodeIds := s.nodes.map (fun n => n.id)
      let tree := buildTree s.edges fuel mainRoot.id
      let totalWidth := (calculateWidth tree : ℚ) * horizontalSpacing
      let startX := 1200 - totalWidth / 2
      setPositions nodeIds tree startX startY ++
        layoutRest nodeIds s.edges fuel rest
          (startX + totalWidth + horizontalSpacing)

/-- Lookup in the assignment list with JS `Map` semantics: the last
`set` for an id wins. -/
def posLookup : List (String × ℚ × ℚ) → String → Option (ℚ × ℚ)
  | [], _ => none
  | e :: rest, i =>
      match posLookup rest i with
      | some p => some p
      | none => if e.1 = i then some e.2 else none

/-- The per-node update at the end of `handleAutoLayout`
(src/unnamed/part_001 lines 170-181): a node found in `nodePositions`
gets its computed position, all other node fields are kept. -/
def applyPositions (positions : List (String × ℚ × ℚ)) (node : Node) :
    Node :=
  match posLookup positions node.id with
  | some p => { node with position := { x := p.1, y := p.2 } }
  | none => node

/-- `handleAutoLayout` as a state transformer: recompute all positions
from the node/edge structure and write them back.  (When there is no
root the source returns early without calling `setNodes`; the update
below is then a map with no effect, which yields the identical
state.) -/
def handleAutoLayout (s : OrgChartState) : OrgChartState :=
  { s with nodes := s.nodes.map (applyPositions (layoutPositions s)) }

/-! ## Reachability over the edge list -/

/-- One parent→child step along an edge. -/
def stepRel (edges : List Edge) (a b : String) : Prop :=
  ∃ e ∈ edges, e.source = a ∧ e.target = b

/-- `reaches edges a b`: `b` is `a` itself or a descendant of `a`. -/
def reaches (edges : List Edge) : String → String → Prop :=
  Relation.ReflTransGen (stepRel edges)

/-- The forest invariant that no node is its own strict descendant. -/
def acyclicEdges (edges : List Edge) : Prop :=
  ∀ a, ¬ Relation.TransGen (stepRel edges) a a

/-- The forest invariant that every edge endpoint names an existing
node. -/
def edgesWellFormed (s : OrgChartState) : Prop :=
  ∀ e ∈ s.edges,
    e.source ∈ s.nodes.map (fun n => n.id) ∧
    e.target ∈ s.nodes.map (fun n => n.id)

mutual

/-- The ids of a layout subtree, in preorder. -/
def treeIds : TreeNode → List String
  | .mk i cs => i :: treeIdsList cs
termination_by structural t => t

/-- The ids of a list of sibling layout subtrees. -/
def treeIdsList : List TreeNode → List String
  | [] => []
  | c :: cs => treeIds c ++ treeIdsList cs
termination_by structural l => l

end

/-- The x-coordinates the position pass assigns to a run of sibling
subtree roots laid out from offset `left`: each sits at the centre of
its own slot, and the running offset advances by the subtree width. -/
def childXVals : List TreeNode → ℚ → List ℚ
  | [], _ => []
  | c :: cs, left =>
      (left + (calculateWidth c : ℚ) * horizontalSpacing / 2) ::
        childXVals cs (left + (calculateWidth c : ℚ) * horizontalSpacing)

/-- The forest as the claim C4 predicts it: the store's visible node
and edge sets with the same collapse state (the layout input the spec's
visible-filter contract describes). -/
def visibleSubstate (s : OrgChartState) : OrgChartState :=
  { nodes := getVisibleNodes s, edges := getVisibleEdges s,
    collapsedNodes := s.collapsedNodes }

/-! ## Concrete example data -/

/-- A concrete employee payload for the example states. -/
def exEmployee (i : String) (lvl : Int) : Employee :=
  { id := i, name := "N" ++ i, position := "P", department := "D",
    email := "E", level := lvl }

/-- A concrete node for the example states. -/
def exNode (i : String) : Node :=
  { id := i, position := { x := 0, y := 0 }, data := exEmployee i 1 }

/-- A concrete parent→child edge for the example states. -/
def exEdge (a b : String) : Edge :=
  { id := "e" ++ a ++ "-" ++ b, source := a, target := b }

/-- Root `r` with children `a` (a leaf) and `b` (three leaf children):
sibling subtrees of unequal widths 1 and 3. -/
def exC1state : OrgChartState :=
  { nodes := [exNode "r", exNode "a", exNode "b", exNode "c1",
      exNode "c2", exNode "c3"],
    edges := [exEdge "r" "a", exEdge "r" "b", exEdge "b" "c1",
      exEdge "b" "c2", exEdge "b" "c3"],
    collapsedNodes := [] }

/-- Root `r` with children `a` (a leaf) and `b` (two leaf children),
with `b` collapsed, so `c1`, `c2` are hidden. -/
def exC4state : OrgChartState :=
  { nodes := [exNode "r", exNode "a", exNode "b", exNode "c1",
      exNode "c2"],
    edges := [exEdge "r" "a", exEdge "r" "b", exEdge "b" "c1",
      exEdge "b" "c2"],
    collapsedNodes := ["b"] }

/-- Two distinct employees on nodes `1` and `2`, one edge `1` → `2`. -/
def exTwoNodeState : OrgChartState :=
  { nodes := [exNode "1", exNode "2"],
    edges := [exEdge "1" "2"],
    collapsedNodes := [] }

/-- Two distinct employees, no edges (for the payload mutations). -/
def exC8state : OrgChartState :=
  { nodes := [exNode "1", exNode "2"], edges := [], collapsedNodes := [] }

/-- A single node present in the node set. -/
def exC6state : OrgChartState :=
  { nodes := [exNode "1"], edges := [], collapsedNodes := [] }

/-- The empty state. -/
def exEmptyState : OrgChartState :=
  { nodes := [], edges := [], collapsedNodes := [] }

/-- A node whose payload carries a foreign id (integrity violation). -/
def exMismatchedState : OrgChartState :=
  { nodes := [⟨"1", ⟨0, 0⟩, exEmployee "2" 1⟩],
    edges := [], collapsedNodes := [] }

/-- Two node entries sharing the id `1` with different payload levels
(duplicate-id integrity violation, payload ids consistent). -/
def exDuplicateState : OrgChartState :=
  { nodes := [exNode "1", ⟨"1", ⟨0, 0⟩, exEmployee "1" 2⟩],
    edges := [], collapsedNodes := [] }

/-! ## Generic list helpers -/

/-- `find?` over a mapped list. -/
theorem find?_map_comm {α β : Type} (l : List α) (f : α → β) (p : β → Bool) :
    (l.map f).find? p = (l.find? (fun a => p (f a))).map f := by
  induction l with
  | nil => rfl
  | cons a l ih => by_cases h : p (f a) <;> simp [List.find?, h, ih]

/-- `filter` over a mapped list. -/
theorem filter_map_comm {α β : Type} (l : List α) (f : α → β) (p : β → Bool) :
    (l.map f).filter p = (l.filter (fun a => p (f a))).map f := by
  induction l with
  | nil => rfl
  | cons a l ih => by_cases h : p (f a) <;> simp [List.filter, h, ih]

/-! ## `posLookup` facts -/

theorem posLookup_eq_none_of_not_mem {l : List (String × ℚ × ℚ)} {i : String}
    (h : i ∉ l.map Prod.fst) : posLookup l i = none := by
  induction l with
  | nil => rfl
  | cons e rest ih =>
      simp only [List.map_cons, List.mem_cons, not_or] at h
      have h1 : ¬ e.1 = i := fun hx => h.1 hx.symm
      simp [posLookup, ih h.2, h1]

theorem posLookup_cons_of_some {e : String × ℚ × ℚ}
    {rest : List (String × ℚ × ℚ)} {i : String} {p : ℚ × ℚ}
    (h : posLookup rest i = some p) : posLookup (e :: rest) i = some p := by
  simp [posLookup, h]

theorem posLookup_append (l₁ l₂ : List (String × ℚ × ℚ)) (i : String) :
    posLookup (l₁ ++ l₂) i =
      match posLookup l₂ i with
      | some p => some p
      | none => posLookup l₁ i := by
  induction l₁ with
  | nil => cases h : posLookup l₂ i <;> simp [posLookup, h]
  | cons e rest ih =>
      cases h : posLookup l₂ i <;>
        simp only [List.cons_append, posLookup, List.append_eq, ih, h]

theorem posLookup_append_of_not_mem_right {l₂ : List (String × ℚ × ℚ)}
    {i : String} (l₁ : List (String × ℚ × ℚ)) (h : i ∉ l₂.map Prod.fst) :
    posLookup (l₁ ++ l₂) i = posLookup l₁ i := by
  rw [posLookup_append, posLookup_eq_none_of_not_mem h]

theorem posLookup_append_of_not_mem_left {l₁ : List (String × ℚ × ℚ)}
    {i : String} (l₂ : List (String × ℚ × ℚ)) (h : i ∉ l₁.map Prod.fst) :
    posLookup (l₁ ++ l₂) i = posLookup l₂ i := by
  rw [posLookup_append]
  cases hx : posLookup l₂ i with
  | some p => rfl
  | none => simp [posLookup_eq_none_of_not_mem h]

/-! ## Width facts -/

mutual

theorem calculateWidth_pos : ∀ t : TreeNode, 1 ≤ calculateWidth t
  | .mk _ [] => le_refl 1
  | .mk _ (c :: cs) => by
      have h := calculateWidth_pos c
      simp only [calculateWidth]
      omega

theorem calculateWidthList_le : ∀ cs : List TreeNode, ∀ c ∈ cs,
    calculateWidth c ≤ calculateWidthList cs
  | [] => by intro d hd; cases hd
  | c :: cs => by
      intro d hd
      rcases List.mem_cons.1 hd with h | h
      · subst h; simp only [calculateWidthList]; omega
      · have := calculateWidthList_le cs d h
        simp only [calculateWidthList]; omega

end

theorem calculateWidthList_eq_sum (cs : List TreeNode) :
    calculateWidthList cs = (cs.map calculateWidth).sum := by
  induction cs with
  | nil => rfl
  | cons c cs ih => simp [calculateWidthList, ih]

theorem calculateWidth_mk_cons (i : String) (c : TreeNode)
    (cs : List TreeNode) :
    calculateWidth (.mk i (c :: cs)) = calculateWidthList (c :: cs) := by
  simp [calculateWidth, calculateWidthList]

theorem calculateWidthList_append (xs ys : List TreeNode) :
    calculateWidthList (xs ++ ys) =
      calculateWidthList xs + calculateWidthList ys := by
  induction xs with
  | nil => simp [calculateWidthList]
  | cons c cs ih => simp [calculateWidthList, ih]; omega

/-! ## Ids occurring in a layout subtree -/

theorem id_mem_treeIds (t : TreeNode) : t.id ∈ treeIds t := by
  cases t; simp [treeIds, TreeNode.id]

theorem treeIds_subset_treeIdsList {c : TreeNode} {cs : List TreeNode}
    (h : c ∈ cs) : ∀ a ∈ treeIds c, a ∈ treeIdsList cs := by
  induction cs with
  | nil => cases h
  | cons d ds ih =>
      intro a ha
      rcases List.mem_cons.1 h with h' | h'
      · subst h'; simp [treeIdsList, ha]
      · simp [treeIdsList, ih h' a ha]

mutual

theorem fst_mem_of_mem_setPositions :
    ∀ (nodeIds : List String) (t : TreeNode) (left top : ℚ),
      ∀ p ∈ setPositions nodeIds t left top, p.1 ∈ treeIds t
  | nodeIds, .mk i cs, left, top => by
      intro p hp
      simp only [setPositions] at hp
      split at hp
      · rcases List.mem_cons.1 hp with h | h
        · subst h; simp [treeIds]
        · have := fst_mem_of_mem_setChildrenPositions nodeIds cs left
            (top + verticalSpacing) p h
          simp [treeIds, this]
      · cases hp

theorem fst_mem_of_mem_setChildrenPositions :
    ∀ (nodeIds : List String) (cs : List TreeNode) (left top : ℚ),
      ∀ p ∈ setChildrenPositions nodeIds cs left top, p.1 ∈ treeIdsList cs
  | nodeIds, [], left, top => by intro p hp; cases hp
  | nodeIds, c :: cs, left, top => by
      intro p hp
      simp only [setChildrenPositions, List.mem_append] at hp
      rcases hp with hp | hp
      · have := fst_mem_of_mem_setPositions nodeIds c left top p hp
        simp [treeIdsList, this]
      · have := fst_mem_of_mem_setChildrenPositions nodeIds cs
          (left + (calculateWidth c : ℚ) * horizontalSpacing) top p hp
        simp [treeIdsList, this]

end

/-! ## Horizontal extent bounds of a laid-out subtree

Every x-coordinate assigned inside the subtree laid out at offset `left`
stays at least half a spacing unit inside the subtree's slot interval
`[left, left + width * horizontalSpacing]`. -/

mutual

theorem setPositions_x_bounds :
    ∀ (nodeIds : List String) (t : TreeNode) (left top : ℚ),
      ∀ p ∈ setPositions nodeIds t left top,
        left + horizontalSpacing / 2 ≤ p.2.1 ∧
        p.2.1 ≤ left + (calculateWidth t : ℚ) * horizontalSpacing -
          horizontalSpacing / 2
  | nodeIds, .mk i cs, left, top => by
      intro p hp
      simp only [setPositions] at hp
      split at hp
      · rcases List.mem_cons.1 hp with h | h
        · subst h
          have hw : (1 : ℚ) ≤ (calculateWidth (.mk i cs) : ℚ) := by
            exact_mod_cast calculateWidth_pos (.mk i cs)
          constructor <;>
            · simp only [horizontalSpacing] at hw ⊢
              nlinarith
        · cases cs with
          | nil => cases h
          | cons c cs' =>
              have hb := setChildrenPositions_x_bounds nodeIds (c :: cs')
                left (top + verticalSpacing) p h
              rw [calculateWidth_mk_cons]
              exact hb
      · cases hp

theorem setChildrenPositions_x_bounds :
    ∀ (nodeIds : List String) (cs : List TreeNode) (left top : ℚ),
      ∀ p ∈ setChildrenPositions nodeIds cs left top,
        left + horizontalSpacing / 2 ≤ p.2.1 ∧
        p.2.1 ≤ left + (calculateWidthList cs : ℚ) * horizontalSpacing -
          horizontalSpacing / 2
  | nodeIds, [], left, top => by intro p hp; cases hp
  | nodeIds, c :: cs, left, top => by
      intro p hp
      simp only [setChildrenPositions, List.mem_append] at hp
      have hcs : (0 : ℚ) ≤ (calculateWidthList cs : ℚ) := by positivity
      have hc : (1 : ℚ) ≤ (calculateWidth c : ℚ) := by
        exact_mod_cast calculateWidth_pos c
      have hsum : (calculateWidthList (c :: cs) : ℚ) =
          (calculateWidth c : ℚ) + (calculateWidthList cs : ℚ) := by
        simp [calculateWidthList]
      rcases hp with hp | hp
      · have hb := setPositions_x_bounds nodeIds c left top p hp
        refine ⟨hb.1, ?_⟩
        have := hb.2
        rw [hsum]
        simp only [horizontalSpacing] at this ⊢
        nlinarith
      · have hb := setChildrenPositions_x_bounds nodeIds cs
          (left + (calculateWidth c : ℚ) * horizontalSpacing) top p hp
        constructor
        · have := hb.1
          simp only [horizontalSpacing] at this ⊢
          nlinarith
        · have := hb.2
          rw [hsum]
          simp only [horizontalSpacing] at this ⊢
          nlinarith

end

/-- The children loop splits over list append, with the running offset
advanced by the combined width of the first block. -/
theorem setChildrenPositions_append (nodeIds : List String)
    (xs ys : List TreeNode) (left top : ℚ) :
    setChildrenPositions nodeIds (xs ++ ys) left top =
      setChildrenPositions nodeIds xs left top ++
        setChildrenPositions nodeIds ys
          (left + (calculateWidthList xs : ℚ) * horizontalSpacing) top := by
  induction xs generalizing left with
  | nil => simp [setChildrenPositions, calculateWidthList]
  | cons c cs ih =>
      simp only [List.cons_append, setChildrenPositions, List.append_eq,
        List.append_assoc, ih]
      have : left + (calculateWidth c : ℚ) * horizontalSpacing +
            (calculateWidthList cs : ℚ) * horizontalSpacing =
          left + (calculateWidthList (c :: cs) : ℚ) * horizontalSpacing := by
        simp [calculateWidthList]
        ring
      rw [this]

/-! ## Looking up individual nodes in a laid-out subtree -/

theorem treeIdsList_append (xs ys : List TreeNode) :
    treeIdsList (xs ++ ys) = treeIdsList xs ++ treeIdsList ys := by
  induction xs with
  | nil => simp [treeIdsList]
  | cons c cs ih => simp [treeIdsList, ih]

/-- Lookup of the subtree root in its own laid-out assignment list. -/
theorem posLookup_setPositions_root (nodeIds : List String) (i : String)
    (cs : List TreeNode) (left top : ℚ) (hmem : i ∈ nodeIds)
    (hni : i ∉ treeIdsList cs) :
    posLookup (setPositions nodeIds (.mk i cs) left top) i =
      some (left + (calculateWidth (.mk i cs) : ℚ) * horizontalSpacing / 2,
        top) := by
  have hrest : posLookup
      (setChildrenPositions nodeIds cs left (top + verticalSpacing)) i =
        none := by
    apply posLookup_eq_none_of_not_mem
    intro hmem'
    rcases List.mem_map.1 hmem' with ⟨p, hp, hpi⟩
    exact hni (hpi ▸ fst_mem_of_mem_setChildrenPositions nodeIds cs left
      (top + verticalSpacing) p hp)
  rw [setPositions, if_pos hmem]
  simp [posLookup, hrest]

/-- Each child subtree's root, looked up in its siblings' combined
assignment list, sits at the centre of its own slot. -/
theorem posLookup_setChildren_split (nodeIds : List String)
    (l₁ l₂ : List TreeNode) (d : TreeNode) (left top : ℚ)
    (hpres : d.id ∈ nodeIds)
    (hnd : (treeIdsList (l₁ ++ d :: l₂)).Nodup) :
    posLookup (setChildrenPositions nodeIds (l₁ ++ d :: l₂) left top) d.id =
      some (left + (calculateWidthList l₁ : ℚ) * horizontalSpacing +
        (calculateWidth d : ℚ) * horizontalSpacing / 2, top) := by
  rw [treeIdsList_append] at hnd
  have hnd' := List.nodup_append.1 hnd
  have hdisj := hnd'.2.2
  rw [setChildrenPositions_append]
  set left' := left + (calculateWidthList l₁ : ℚ) * horizontalSpacing with hl
  have hmemd : d.id ∈ treeIds d := id_mem_treeIds d
  have h1 : d.id ∉ (setChildrenPositions nodeIds l₁ left top).map Prod.fst := by
    intro hx
    rcases List.mem_map.1 hx with ⟨p, hp, hpi⟩
    have : d.id ∈ treeIdsList l₁ :=
      hpi ▸ fst_mem_of_mem_setChildrenPositions nodeIds l₁ left top p hp
    exact hdisj this (by simp [treeIdsList, hmemd])
  rw [posLookup_append_of_not_mem_left _ h1]
  have hnd2 : (treeIds d ++ treeIdsList l₂).Nodup := by
    simpa [treeIdsList] using hnd'.2.1
  have hdisj2 := List.disjoint_of_nodup_append hnd2
  show posLookup (setChildrenPositions nodeIds (d :: l₂) left' top) d.id = _
  rw [setChildrenPositions]
  have h2 : d.id ∉ (setChildrenPositions nodeIds l₂
      (left' + (calculateWidth d : ℚ) * horizontalSpacing) top).map
        Prod.fst := by
    intro hx
    rcases List.mem_map.1 hx with ⟨p, hp, hpi⟩
    exact hdisj2 hmemd (hpi ▸ fst_mem_of_mem_setChildrenPositions nodeIds l₂
      (left' + (calculateWidth d : ℚ) * horizontalSpacing) top p hp)
  rw [posLookup_append_of_not_mem_right _ h2]
  obtain ⟨i, ccs⟩ := d
  have hnid : i ∉ treeIdsList ccs := by
    have h3 : (treeIds (TreeNode.mk i ccs)).Nodup :=
      (List.nodup_append.1 hnd2).1
    rw [treeIds] at h3
    exact (List.nodup_cons.1 h3).1
  exact posLookup_setPositions_root nodeIds i ccs left' top hpres hnid

theorem posLookup_children (nodeIds : List String) (cs : List TreeNode)
    (left top : ℚ) (hpres : ∀ a ∈ treeIdsList cs, a ∈ nodeIds)
    (hnd : (treeIdsList cs).Nodup) :
    cs.map (fun c =>
        posLookup (setChildrenPositions nodeIds cs left top) c.id) =
      (childXVals cs left).map (fun x => some (x, top)) := by
  induction cs generalizing left with
  | nil => rfl
  | cons c cs' ih =>
      have hnd0 : (treeIds c ++ treeIdsList cs').Nodup := by
        simpa [treeIdsList] using hnd
      have hnd' := List.nodup_append.1 hnd0
      have hdisj := hnd'.2.2
      have hhead : posLookup
          (setChildrenPositions nodeIds (c :: cs') left top) c.id =
            some (left + (calculateWidth c : ℚ) * horizontalSpacing / 2,
              top) := by
        have := posLookup_setChildren_split nodeIds [] cs' c left top
          (hpres c.id (by simp [treeIdsList, id_mem_treeIds c]))
          (by simpa [treeIdsList] using hnd)
        simpa [calculateWidthList] using this
      have htail : ∀ d ∈ cs',
          posLookup (setChildrenPositions nodeIds (c :: cs') left top)
              d.id =
            posLookup (setChildrenPositions nodeIds cs'
              (left + (calculateWidth c : ℚ) * horizontalSpacing) top)
              d.id := by
        intro d hd
        rw [setChildrenPositions]
        apply posLookup_append_of_not_mem_left
        intro hx
        rcases List.mem_map.1 hx with ⟨p, hp, hpi⟩
        have hin : d.id ∈ treeIds c :=
          hpi ▸ fst_mem_of_mem_setPositions nodeIds c left top p hp
        exact hdisj hin (treeIds_subset_treeIdsList hd d.id
          (id_mem_treeIds d))
      simp only [List.map_cons, childXVals, hhead]
      congr 1
      rw [List.map_congr_left htail]
      exact ih (left + (calculateWidth c : ℚ) * horizontalSpacing)
        (fun a ha => hpres a (by simp [treeIdsList, ha]))
        hnd'.2.1

/-- Sum of the slot-centre x-coordinates when all sibling subtrees have
one common width `w`. -/
theorem childXVals_sum_of_equal_width (cs : List TreeNode) (w : Nat)
    (hw : ∀ c ∈ cs, calculateWidth c = w) (left : ℚ) :
    (childXVals cs left).sum =
      (cs.length : ℚ) * left +
        (cs.length : ℚ) ^ 2 * (w : ℚ) * horizontalSpacing / 2 := by
  induction cs generalizing left with
  | nil => simp [childXVals]
  | cons c cs' ih =>
      have hc : calculateWidth c = w := hw c (by simp)
      have ihs := ih (fun d hd => hw d (by simp [hd]))
        (left + (w : ℚ) * horizontalSpacing)
      simp only [childXVals, List.sum_cons, hc, ihs, List.length_cons]
      push_cast
      ring

/-! ## Reachability facts for the cascading delete -/

theorem stepRel_of_mem_childrenOf {edges : List Edge} {a c : String}
    (h : c ∈ childrenOf edges a) : stepRel edges a c := by
  simp only [childrenOf, List.mem_map, List.mem_filter] at h
  rcases h with ⟨e, ⟨he, hs⟩, ht⟩
  exact ⟨e, he, by simpa using hs, ht⟩

theorem mem_childrenOf_of_stepRel {edges : List Edge} {a c : String}
    (h : stepRel edges a c) : c ∈ childrenOf edges a := by
  rcases h with ⟨e, he, hs, ht⟩
  simp only [childrenOf, List.mem_map, List.mem_filter]
  exact ⟨e, ⟨he, by simpa using hs⟩, ht⟩

/-- Soundness of the DFS list: every collected id is reachable. -/
theorem reaches_of_mem_findAllChildren (edges : List Edge) :
    ∀ (fuel : Nat) (a b : String),
      b ∈ findAllChildren edges fuel a → reaches edges a b := by
  intro fuel
  induction fuel with
  | zero =>
      intro a b h
      simp only [findAllChildren, List.mem_singleton] at h
      subst h
      exact Relation.ReflTransGen.refl
  | succ f ih =>
      intro a b h
      simp only [findAllChildren, List.mem_cons, List.mem_flatMap] at h
      rcases h with h | ⟨c, hc, hb⟩
      · subst h; exact Relation.ReflTransGen.refl
      · exact Relation.ReflTransGen.head (stepRel_of_mem_childrenOf hc)
          (ih c b hb)

/-- Completeness of the DFS list on acyclic edge sets: with fuel
`edges.length` every reachable id is collected.  The measure `μ v`
counts the distinct edges whose source is reachable from `v`; one
parent→child step strictly decreases it. -/
theorem mem_findAllChildren_of_reaches (edges : List Edge)
    (hacyc : acyclicEdges edges) (a b : String) (h : reaches edges a b) :
    b ∈ findAllChildren edges edges.length a := by
  classical
  let μ : String → Nat := fun v =>
    ((edges.toFinset).filter (fun e => reaches edges v e.source)).card
  have hμle : ∀ v, μ v ≤ edges.length := by
    intro v
    calc ((edges.toFinset).filter
            (fun e => reaches edges v e.source)).card
        ≤ edges.toFinset.card := Finset.card_filter_le _ _
      _ ≤ edges.length := edges.toFinset_card_le
  have hstep : ∀ v c, stepRel edges v c → μ c < μ v := by
    intro v c hvc
    obtain ⟨e0, he0, hs, ht⟩ := hvc
    apply Finset.card_lt_card
    have hsub : (edges.toFinset).filter
          (fun e => reaches edges c e.source) ⊆
        (edges.toFinset).filter (fun e => reaches edges v e.source) := by
      intro e he
      simp only [Finset.mem_filter] at he ⊢
      exact ⟨he.1, Relation.ReflTransGen.head ⟨e0, he0, hs, ht⟩ he.2⟩
    refine (Finset.ssubset_iff_of_subset hsub).2 ⟨e0, ?_, ?_⟩
    · simp only [Finset.mem_filter, List.mem_toFinset]
      exact ⟨he0, hs ▸ Relation.ReflTransGen.refl⟩
    · simp only [Finset.mem_filter, List.mem_toFinset, not_and]
      intro _ hreach
      exact hacyc v
        (Relation.TransGen.head' ⟨e0, he0, hs, ht⟩ (hs ▸ hreach))
  have main : ∀ (F : Nat) (v : String), μ v ≤ F →
      ∀ b, reaches edges v b → b ∈ findAllChildren edges F v := by
    intro F
    induction F with
    | zero =>
        intro v hv b hr
        rcases Relation.ReflTransGen.cases_head hr with h' | ⟨c, hvc, _⟩
        · subst h'; simp [findAllChildren]
        · exact absurd hv (by have := hstep v c hvc; omega)
    | succ F ih =>
        intro v hv b hr
        rcases Relation.ReflTransGen.cases_head hr with h' | ⟨c, hvc, hcb⟩
        · subst h'; simp [findAllChildren]
        · have hc : μ c ≤ F := by have := hstep v c hvc; omega
          simp only [findAllChildren, List.mem_cons, List.mem_flatMap]
          exact Or.inr ⟨c, mem_childrenOf_of_stepRel hvc, ih c hc b hcb⟩
  exact main edges.length a (hμle a) b h

/-- On acyclic edge sets the DFS list is exactly the reachable set. -/
theorem mem_findAllChildren_iff {edges : List Edge}
    (hacyc : acyclicEdges edges) (a b : String) :
    b ∈ findAllChildren edges edges.length a ↔ reaches edges a b :=
  ⟨reaches_of_mem_findAllChildren edges edges.length a b,
    mem_findAllChildren_of_reaches edges hacyc a b⟩

/-- A node with no outgoing edge has a singleton DFS list. -/
theorem findAllChildren_eq_single {edges : List Edge} {id : String}
    (hnochild : childrenOf edges id = []) :
    ∀ F, findAllChildren edges F id = [id] := by
  intro F
  cases F with
  | zero => rfl
  | succ f => simp [findAllChildren, hnochild]

/-! ## Layout idempotence machinery -/

theorem applyPositions_id (positions : List (String × ℚ × ℚ))
    (node : Node) : (applyPositions positions node).id = node.id := by
  unfold applyPositions
  cases posLookup positions node.id <;> rfl

theorem applyPositions_applyPositions (positions : List (String × ℚ × ℚ))
    (node : Node) :
    applyPositions positions (applyPositions positions node) =
      applyPositions positions node := by
  unfold applyPositions
  cases h : posLookup positions node.id with
  | none => simp [h]
  | some p => simp [h]

theorem edges_handleAutoLayout (s : OrgChartState) :
    (handleAutoLayout s).edges = s.edges := rfl

theorem nodeIds_handleAutoLayout (s : OrgChartState) :
    (handleAutoLayout s).nodes.map (fun n => n.id) =
      s.nodes.map (fun n => n.id) := by
  show (s.nodes.map (applyPositions (layoutPositions s))).map
      (fun n => n.id) = _
  rw [List.map_map]
  apply List.map_congr_left
  intro n _
  exact applyPositions_id _ n

theorem rootNodes_handleAutoLayout (s : OrgChartState) :
    rootNodes (handleAutoLayout s) =
      (rootNodes s).map (applyPositions (layoutPositions s)) := by
  show (s.nodes.map (applyPositions (layoutPositions s))).filter _ = _
  rw [filter_map_comm]
  unfold rootNodes
  congr 1
  apply List.filter_congr
  intro n _
  simp only [applyPositions_id, edges_handleAutoLayout]

theorem layoutRest_map_congr (nodeIds : List String) (edges : List Edge)
    (fuel : Nat) (f : Node → Node) (hf : ∀ r, (f r).id = r.id) :
    ∀ (rest : List Node) (offsetX : ℚ),
      layoutRest nodeIds edges fuel (rest.map f) offsetX =
        layoutRest nodeIds edges fuel rest offsetX := by
  intro rest
  induction rest with
  | nil => intro offsetX; rfl
  | cons root rest ih =>
      intro offsetX
      simp only [List.map_cons, layoutRest, hf root, ih]

theorem layoutPositions_handleAutoLayout (s : OrgChartState) :
    layoutPositions (handleAutoLayout s) = layoutPositions s := by
  unfold layoutPositions
  rw [rootNodes_handleAutoLayout, edges_handleAutoLayout,
    nodeIds_handleAutoLayout]
  cases h : rootNodes s with
  | nil => rfl
  | cons mainRoot rest =>
      simp only [List.map_cons]
      rw [applyPositions_id,
        layoutRest_map_congr _ _ _ _ (applyPositions_id _) rest]

/-! ## Claims -/

/-- Claim C3: the layout pass is idempotent — for every state (forest
plus collapse state), running `handleAutoLayout` twice with no
structural change in between yields exactly the same state as running
it once, in particular pointwise identical positions; the computed
positions are a function of the node/edge structure only and never read
the nodes' prior positions. -/
theorem handleAutoLayout_idempotent (s : OrgChartState) :
    handleAutoLayout (handleAutoLayout s) = handleAutoLayout s := by
  have hP := layoutPositions_handleAutoLayout s
  show ({ s with
      nodes := List.map
        (applyPositions (layoutPositions (handleAutoLayout s)))
        (List.map (applyPositions (layoutPositions s)) s.nodes) } :
    OrgChartState) = _
  rw [hP, List.map_map]
  congr 1
  apply List.map_congr_left
  intro n _
  simp only [Function.comp_apply]
  exact applyPositions_applyPositions _ n

/-- Claim C4 (counterexample): the layout pass does not operate on the
visible-node filter.  In `exC4state`, node `b` is collapsed and its
children `c1`, `c2` are hidden: `getVisibleNodes` returns `r`, `a`, `b`
only.  Were the width pass computed over visible children only (as the
claim states), laying out the visible substate would be the result; it
places `a` at x = 875.  The actual layout places `a` at x = 550,
because the hidden children of `b` still contribute to `b`'s subtree
width, and it also assigns a fresh position to the hidden node `c1`. -/
theorem layout_not_on_visible_filter :
    getVisibleNodes exC4state = [exNode "r", exNode "a", exNode "b"] ∧
    posLookup (layoutPositions exC4state) "a" = some (550, 380) ∧
    posLookup (layoutPositions (visibleSubstate exC4state)) "a" =
      some (875, 380) ∧
    (550 : ℚ) ≠ 875 ∧
    posLookup (layoutPositions exC4state) "c1" = some (1200, 660) := by
  refine ⟨by decide, ?_, ?_, by norm_num, ?_⟩ <;>
    · norm_num [exC4state, exNode, exEdge, exEmployee, visibleSubstate,
        getVisibleNodes, getVisibleEdges, hiddenNodes, getDescendants,
        childrenOf, layoutPositions, rootNodes, buildTree, setPositions,
        setChildrenPositions, calculateWidth, calculateWidthList,
        layoutRest, posLookup, horizontalSpacing, verticalSpacing, startY]
      decide

/-- Claim C4 (amended): the layout pass ignores the visible-node filter
entirely.  Its output is independent of the collapse state, and the
width pass counts every child in the edge list: `width(node) = 1` when
the node has no children at all, and otherwise the sum of the widths of
all its children — children hidden by a collapsed ancestor contribute
to subtree widths exactly like visible ones. -/
theorem layout_ignores_collapse :
    (∀ (s : OrgChartState) (c : List String),
      layoutPositions { s with collapsedNodes := c } = layoutPositions s) ∧
    (∀ (edges : List Edge) (fuel : Nat) (i : String),
      calculateWidth (buildTree edges (fuel + 1) i) =
        if childrenOf edges i = [] then 1
        else ((childrenOf edges i).map
          (fun j => calculateWidth (buildTree edges fuel j))).sum) := by
  constructor
  · intro s c; rfl
  · intro edges fuel i
    rw [buildTree]
    cases h : childrenOf edges i with
    | nil => simp [calculateWidth]
    | cons x xs =>
        rw [if_neg (by simp)]
        rw [List.map_cons, calculateWidth_mk_cons,
          calculateWidthList_eq_sum, List.map_cons, List.map_map,
          List.sum_cons, List.map_cons, List.sum_cons]
        rfl

theorem calculateWidthList_of_equal_width (cs : List TreeNode) (w : Nat)
    (hw : ∀ c ∈ cs, calculateWidth c = w) :
    calculateWidthList cs = cs.length * w := by
  induction cs with
  | nil => simp [calculateWidthList]
  | cons c cs ih =>
      have h1 := hw c (by simp)
      have h2 := ih (fun d hd => hw d (by simp [hd]))
      simp [calculateWidthList, h1, h2]
      ring

/-- Claim C1 (counterexample): a parent's x-coordinate is not the
arithmetic average of its children's x-coordinates when sibling
subtrees have unequal widths.  In `exC1state`, root `r` has children
`a` (width 1) and `b` (width 3): the layout places `r` at x = 1200,
`a` at x = 225 and `b` at x = 1525, and the children's average is
(225 + 1525) / 2 = 875 ≠ 1200. -/
theorem parent_x_not_average_of_children :
    posLookup (layoutPositions exC1state) "r" = some (1200, 100) ∧
    posLookup (layoutPositions exC1state) "a" = some (225, 380) ∧
    posLookup (layoutPositions exC1state) "b" = some (1525, 380) ∧
    (1200 : ℚ) ≠ (225 + 1525) / 2 := by
  refine ⟨?_, ?_, ?_, by norm_num⟩ <;>
    · norm_num [exC1state, exNode, exEdge, exEmployee, layoutPositions,
        rootNodes, buildTree, childrenOf, setPositions,
        setChildrenPositions, calculateWidth, calculateWidthList,
        layoutRest, posLookup, horizontalSpacing, verticalSpacing, startY]
      decide

/-- Claim C1 (amended): in the position pass, a parent with children is
placed at the midpoint of its children's combined horizontal slot span
`[left, left + width * horizontalSpacing]` — the parent's width being
exactly the sum of the children's widths — and the parent's
x-coordinate equals the arithmetic average of its children's
x-coordinates precisely in the special case that all child subtrees
share one common width `w` (in particular whenever all children are
leaves): the third conjunct states `k * parent.x = Σ child.x` for `k`
children, which for `k > 0` is that average property. -/
theorem setPositions_parent_centered (nodeIds : List String) (i : String)
    (cs : List TreeNode) (left top : ℚ)
    (hpres : ∀ a ∈ treeIds (.mk i cs), a ∈ nodeIds)
    (hnd : (treeIds (.mk i cs)).Nodup) :
    posLookup (setPositions nodeIds (.mk i cs) left top) i =
      some (left +
        (calculateWidth (.mk i cs) : ℚ) * horizontalSpacing / 2, top) ∧
    (cs ≠ [] → calculateWidth (.mk i cs) = calculateWidthList cs) ∧
    ∀ w : Nat, (∀ c ∈ cs, calculateWidth c = w) →
      (cs.map (fun c =>
          ((posLookup (setPositions nodeIds (.mk i cs) left top)
            c.id).getD (0, 0)).1)).sum =
        (cs.length : ℚ) *
          (left + (calculateWidth (.mk i cs) : ℚ) * horizontalSpacing / 2) := by
  have hin : i ∈ nodeIds := hpres i (by simp [treeIds])
  have hni : i ∉ treeIdsList cs := by
    have := hnd
    rw [treeIds] at this
    exact (List.nodup_cons.1 this).1
  have hndl : (treeIdsList cs).Nodup := by
    have := hnd
    rw [treeIds] at this
    exact (List.nodup_cons.1 this).2
  have hroot := posLookup_setPositions_root nodeIds i cs left top hin hni
  refine ⟨hroot, ?_, ?_⟩
  · intro hne
    cases cs with
    | nil => exact absurd rfl hne
    | cons c cs' => exact calculateWidth_mk_cons i c cs'
  · intro w hw
    cases cs with
    | nil => simp
    | cons c cs' =>
        have hpres' : ∀ a ∈ treeIdsList (c :: cs'), a ∈ nodeIds := by
          intro a ha
          exact hpres a (by simp [treeIds, ha])
        have hchild := posLookup_children nodeIds (c :: cs') left
          (top + verticalSpacing) hpres' hndl
        have hdne : ∀ d ∈ (c :: cs'),
            posLookup (setPositions nodeIds (.mk i (c :: cs')) left top)
                d.id =
              posLookup (setChildrenPositions nodeIds (c :: cs') left
                (top + verticalSpacing)) d.id := by
          intro d hd
          rw [setPositions, if_pos hin]
          have hne : ¬ i = d.id := by
            intro h
            exact hni (h ▸ treeIds_subset_treeIdsList hd d.id
              (id_mem_treeIds d))
          cases h' : posLookup (setChildrenPositions nodeIds (c :: cs')
              left (top + verticalSpacing)) d.id with
          | some p => simp [posLookup, h']
          | none => simp [posLookup, h', hne]
        rw [List.map_congr_left (fun d hd => by rw [hdne d hd])]
        have : (c :: cs').map (fun d =>
            ((posLookup (setChildrenPositions nodeIds (c :: cs') left
              (top + verticalSpacing)) d.id).getD (0, 0)).1) =
            childXVals (c :: cs') left := by
          have hmm := congrArg
            (List.map (fun o : Option (ℚ × ℚ) => (o.getD (0, 0)).1))
            hchild
          rw [List.map_map, List.map_map] at hmm
          simp only [Function.comp_def] at hmm
          simpa using hmm
        rw [this, childXVals_sum_of_equal_width (c :: cs') w hw left]
        have hwl : (calculateWidth (.mk i (c :: cs')) : ℚ) =
            ((c :: cs').length : ℚ) * (w : ℚ) := by
          rw [calculateWidth_mk_cons,
            calculateWidthList_of_equal_width (c :: cs') w hw]
          push_cast
          ring_nf
        rw [hwl]
        ring

/-- Claim C2: any two sibling subtrees have disjoint horizontal
extents.  Siblings `c` (with `l₁` siblings to its left) and `c'` (with
additionally `l₂` siblings between them) are laid out by the children
loop at the running offsets stated in the hypotheses; the conclusion
re-locates both laid-out entry sets inside the combined children-loop
output and shows that every x-coordinate in `c`'s subtree, widened by
half a card width (240 / 2 = 120), stays strictly to the left of every
x-coordinate in `c'`'s subtree widened the same way — the extents
`[x_min - 120, x_max + 120]` never overlap, for every tree shape. -/
theorem sibling_subtree_extents_disjoint (nodeIds : List String)
    (l₁ l₂ l₃ : List TreeNode) (c c' : TreeNode) (left top : ℚ)
    (p q : String × ℚ × ℚ)
    (hp : p ∈ setPositions nodeIds c
      (left + (calculateWidthList l₁ : ℚ) * horizontalSpacing) top)
    (hq : q ∈ setPositions nodeIds c'
      (left + (calculateWidthList (l₁ ++ c :: l₂) : ℚ) *
        horizontalSpacing) top) :
    p ∈ setChildrenPositions nodeIds (l₁ ++ c :: l₂ ++ c' :: l₃)
      left top ∧
    q ∈ setChildrenPositions nodeIds (l₁ ++ c :: l₂ ++ c' :: l₃)
      left top ∧
    p.2.1 + cardWidth / 2 < q.2.1 - cardWidth / 2 := by
  have hqoff : left + (calculateWidthList (l₁ ++ c :: l₂) : ℚ) *
      horizontalSpacing =
      left + (calculateWidthList l₁ : ℚ) * horizontalSpacing +
        (calculateWidth c : ℚ) * horizontalSpacing +
        (calculateWidthList l₂ : ℚ) * horizontalSpacing := by
    rw [calculateWidthList_append]
    simp only [calculateWidthList]
    push_cast
    ring
  have hpmem : p ∈ setChildrenPositions nodeIds (l₁ ++ c :: l₂) left top := by
    rw [setChildrenPositions_append, setChildrenPositions]
    exact List.mem_append_right _ (List.mem_append_left _ hp)
  have hqmem : q ∈ setChildrenPositions nodeIds (c' :: l₃)
      (left + (calculateWidthList (l₁ ++ c :: l₂) : ℚ) *
        horizontalSpacing) top := by
    rw [setChildrenPositions]
    exact List.mem_append_left _ hq
  refine ⟨?_, ?_, ?_⟩
  · rw [setChildrenPositions_append]
    exact List.mem_append_left _ hpmem
  · rw [setChildrenPositions_append]
    exact List.mem_append_right _ hqmem
  · have hbp := setPositions_x_bounds nodeIds c
      (left + (calculateWidthList l₁ : ℚ) * horizontalSpacing) top p hp
    have hbq := setPositions_x_bounds nodeIds c'
      (left + (calculateWidthList (l₁ ++ c :: l₂) : ℚ) *
        horizontalSpacing) top q hq
    have h1 := hbp.2
    have h2 := hbq.1
    rw [hqoff] at h2
    have hl2 : (0 : ℚ) ≤ (calculateWidthList l₂ : ℚ) := by positivity
    simp only [horizontalSpacing, cardWidth] at h1 h2 ⊢
    linarith

/-- Claim C5: on an acyclic edge set, `deleteEmployee id` keeps exactly
the nodes not reachable from `id` (so it removes `descendantsOf(id) ∪
id`, and nothing else), keeps exactly the edges with neither endpoint
reachable from `id` (so it removes every edge incident to a removed
node, and nothing else), leaves the collapse set alone, is a complete
no-op when `id` names no node (under the no-dangling-edge invariant),
and, when node ids are unique and all descendants are present, removes
exactly `|descendantsOf(id)| + 1` nodes. -/
theorem deleteEmployee_spec (s : OrgChartState) (id : String)
    (hacyc : acyclicEdges s.edges) :
    (∀ n, n ∈ (deleteEmployee id s).nodes ↔
      n ∈ s.nodes ∧ ¬ reaches s.edges id n.id) ∧
    (∀ e, e ∈ (deleteEmployee id s).edges ↔
      e ∈ s.edges ∧ ¬ reaches s.edges id e.source ∧
        ¬ reaches s.edges id e.target) ∧
    (deleteEmployee id s).collapsedNodes = s.collapsedNodes ∧
    (id ∉ s.nodes.map (fun n => n.id) → edgesWellFormed s →
      deleteEmployee id s = s) ∧
    ((s.nodes.map (fun n => n.id)).Nodup →
      (∀ a, reaches s.edges id a → a ∈ s.nodes.map (fun n => n.id)) →
      (deleteEmployee id s).nodes.length +
        (((findAllChildren s.edges s.edges.length id).toFinset.erase
          id).card + 1) = s.nodes.length) := by
  refine ⟨?_, ?_, rfl, ?_, ?_⟩
  · intro n
    simp only [deleteEmployee, List.mem_filter, decide_eq_true_eq,
      mem_findAllChildren_iff hacyc]
  · intro e
    simp only [deleteEmployee, List.mem_filter, Bool.and_eq_true,
      decide_eq_true_eq, mem_findAllChildren_iff hacyc, and_assoc]
  · intro hnid hwf
    have hnochild : childrenOf s.edges id = [] := by
      cases h : childrenOf s.edges id with
      | nil => rfl
      | cons x xs =>
          exfalso
          have hx : x ∈ childrenOf s.edges id := by simp [h]
          obtain ⟨e, he, hs, _⟩ := stepRel_of_mem_childrenOf hx
          exact hnid (hs ▸ (hwf e he).1)
    have hD := findAllChildren_eq_single hnochild s.edges.length
    obtain ⟨ns, es, cl⟩ := s
    have hnid' : id ∉ ns.map (fun n => n.id) := hnid
    have hwf' : ∀ e ∈ es, e.source ∈ ns.map (fun n => n.id) ∧
        e.target ∈ ns.map (fun n => n.id) := hwf
    simp only [deleteEmployee, hD]
    congr 1
    · apply List.filter_eq_self.2
      intro n hn
      simp only [List.mem_singleton, decide_eq_true_eq]
      intro h
      exact hnid' (h ▸ List.mem_map_of_mem (fun n => n.id) hn)
    · apply List.filter_eq_self.2
      intro e he
      have h1 : e.source ≠ id := fun h =>
        hnid' (h ▸ (hwf' e he).1)
      have h2 : e.target ≠ id := fun h =>
        hnid' (h ▸ (hwf' e he).2)
      simp [h1, h2]
  · intro hnd hclosed
    set D := findAllChildren s.edges s.edges.length id with hDdef
    have hidD : id ∈ D := by
      cases hF : s.edges.length with
      | zero => simp [hDdef, hF, findAllChildren]
      | succ f => simp [hDdef, hF, findAllChildren]
    have hDsub : ∀ a ∈ D, a ∈ s.nodes.map (fun n => n.id) := by
      intro a ha
      exact hclosed a (reaches_of_mem_findAllChildren s.edges
        s.edges.length id a ha)
    have hsplit : ((s.nodes.filter (fun n => decide (n.id ∉ D))).length +
        (s.nodes.filter (fun n => decide (n.id ∈ D))).length) =
          s.nodes.length := by
      have := List.length_eq_length_filter_add
        (l := s.nodes) (fun n => decide (n.id ∈ D))
      simp only [decide_not] at this ⊢
      omega
    have hcount : (s.nodes.filter (fun n => decide (n.id ∈ D))).length =
        D.toFinset.card := by
      have hcomm : (s.nodes.map (fun n => n.id)).filter
          (fun a => decide (a ∈ D)) =
          (s.nodes.filter (fun n => decide (n.id ∈ D))).map
            (fun n => n.id) := by
        rw [filter_map_comm]
      have hlen : ((s.nodes.map (fun n => n.id)).filter
          (fun a => decide (a ∈ D))).length =
          (s.nodes.filter (fun n => decide (n.id ∈ D))).length := by
        rw [hcomm, List.length_map]
      have hndf : ((s.nodes.map (fun n => n.id)).filter
          (fun a => decide (a ∈ D))).Nodup := hnd.filter _
      have htf : ((s.nodes.map (fun n => n.id)).filter
          (fun a => decide (a ∈ D))).toFinset = D.toFinset := by
        apply Finset.ext
        intro a
        simp only [List.mem_toFinset, List.mem_filter, decide_eq_true_eq]
        constructor
        · intro h; exact h.2
        · intro h; exact ⟨hDsub a h, h⟩
      have hcard := List.toFinset_card_of_nodup hndf
      rw [htf] at hcard
      omega
    have hfin : D.toFinset.card = (D.toFinset.erase id).card + 1 := by
      rw [Finset.card_erase_add_one (List.mem_toFinset.2 hidD)]
    have hdel : (deleteEmployee id s).nodes =
        s.nodes.filter (fun n => decide (n.id ∉ D)) := rfl
    rw [hdel]
    omega

/-- Claim C6 (counterexample): `addEmployee` performs no duplicate-id
check and never raises a validation error.  Inserting an employee whose
id `1` already exists in `exC6state` simply appends a second node: the
resulting id list is `["1", "1"]` and both the node set and the overall
state have changed, instead of the insert being rejected wholesale. -/
theorem addEmployee_accepts_duplicate_id :
    ((addEmployee 0 (exEmployee "1" 1) none exC6state).nodes.map
      (fun n => n.id)) = ["1", "1"] ∧
    addEmployee 0 (exEmployee "1" 1) none exC6state ≠ exC6state := by
  constructor
  · rfl
  · intro h
    have hlen := congrArg (fun st => st.nodes.length) h
    simp [addEmployee, exC6state] at hlen

/-- Claim C6 (amended): `addEmployee` appends the new node
unconditionally, even when `node.id` already exists: the node count
always grows by exactly one, the previous nodes survive unchanged as a
prefix, the number of nodes carrying the duplicated id grows from at
least one to one more, and when no parent is given the edge set is
untouched. -/
theorem addEmployee_appends_unconditionally (rx : ℚ)
    (employee : Employee) (parentId : Option String) (s : OrgChartState)
    (hdup : employee.id ∈ s.nodes.map (fun n => n.id)) :
    (addEmployee rx employee parentId s).nodes.length =
      s.nodes.length + 1 ∧
    (addEmployee rx employee parentId s).nodes.take s.nodes.length =
      s.nodes ∧
    ((addEmployee rx employee parentId s).nodes.map
        (fun n => n.id)).count employee.id =
      ((s.nodes.map (fun n => n.id)).count employee.id) + 1 ∧
    1 ≤ (s.nodes.map (fun n => n.id)).count employee.id ∧
    (parentId = none →
      (addEmployee rx employee parentId s).edges = s.edges) := by
  refine ⟨?_, ?_, ?_, ?_, ?_⟩
  · simp [addEmployee]
  · show (s.nodes ++ ([_] : List Node)).take s.nodes.length = s.nodes
    rw [List.take_left]
  · show ((s.nodes ++ ([_] : List Node)).map
      (fun n => n.id)).count employee.id = _
    rw [List.map_append, List.count_append]
    simp
  · exact List.one_le_count_iff.2 hdup
  · intro h
    subst h
    rfl

/-- Claim C7 (counterexample): insertion with a `parentId` that names
no existing node breaks the no-dangling-edge invariant.  Starting from
the empty state (which satisfies the invariant), `addEmployee` with
parent id `ghost` records the edge `ghost → 1` although no node
`ghost` exists. -/
theorem addEmployee_creates_dangling_edge :
    edgesWellFormed exEmptyState ∧
    ¬ edgesWellFormed
      (addEmployee 0 (exEmployee "1" 1) (some "ghost") exEmptyState) := by
  constructor
  · intro e he
    cases he
  · intro h
    have hmem : (⟨"e" ++ "ghost" ++ "-" ++ "1", "ghost", "1"⟩ : Edge) ∈
        (addEmployee 0 (exEmployee "1" 1) (some "ghost")
          exEmptyState).edges := by
      show _ ∈ [(⟨"e" ++ "ghost" ++ "-" ++ "1", "ghost", "1"⟩ : Edge)]
      simp
    have := (h _ hmem).1
    simp [addEmployee, exEmptyState, exEmployee] at this

/-- Claim C7 (amended): the no-dangling-edge invariant is preserved by
`updateEmployee`, `deleteEmployee`, `toggleNodeCollapse`,
`replaceNodeData`, and by `addEmployee` without a parent; `addEmployee`
with a parent preserves it whenever the given parent id names an
existing node (the counterexample shows this proviso cannot be
dropped). -/
theorem edgesWellFormed_congr (s s' : OrgChartState)
    (h1 : s'.edges = s.edges)
    (h2 : s'.nodes.map (fun n => n.id) = s.nodes.map (fun n => n.id))
    (hwf : edgesWellFormed s) : edgesWellFormed s' := by
  intro e he
  rw [h2]
  exact hwf e (h1 ▸ he)

theorem nodeIds_map_of_id_preserving (l : List Node) (f : Node → Node)
    (hf : ∀ n, (f n).id = n.id) :
    (l.map f).map (fun n => n.id) = l.map (fun n => n.id) := by
  rw [List.map_map]
  apply List.map_congr_left
  intro n _
  exact hf n

theorem mutations_preserve_edge_invariant (s : OrgChartState)
    (hwf : edgesWellFormed s) :
    (∀ id patch, edgesWellFormed (updateEmployee id patch s)) ∧
    (∀ id, edgesWellFormed (deleteEmployee id s)) ∧
    (∀ id, edgesWellFormed (toggleNodeCollapse id s)) ∧
    (∀ a b, edgesWellFormed (replaceNodeData a b s)) ∧
    (∀ rx e, edgesWellFormed (addEmployee rx e none s)) ∧
    (∀ rx e pid, pid ∈ s.nodes.map (fun n => n.id) →
      edgesWellFormed (addEmployee rx e (some pid) s)) := by
  refine ⟨?_, ?_, ?_, ?_, ?_, ?_⟩
  · intro id patch
    refine edgesWellFormed_congr s _ rfl ?_ hwf
    exact nodeIds_map_of_id_preserving s.nodes _
      (fun n => by split <;> rfl)
  · intro id e he
    have he' : e ∈ s.edges ∧
        (decide (e.source ∉ findAllChildren s.edges s.edges.length id) &&
          decide (e.target ∉ findAllChildren s.edges s.edges.length id)) =
            true := List.mem_filter.1 he
    simp only [Bool.and_eq_true, decide_eq_true_eq] at he'
    obtain ⟨hee, hs, ht⟩ := he'
    have h := hwf e hee
    constructor
    · rcases List.mem_map.1 h.1 with ⟨n, hn, hna⟩
      refine List.mem_map.2 ⟨n, List.mem_filter.2 ⟨hn, ?_⟩, hna⟩
      simpa [hna] using hs
    · rcases List.mem_map.1 h.2 with ⟨n, hn, hna⟩
      refine List.mem_map.2 ⟨n, List.mem_filter.2 ⟨hn, ?_⟩, hna⟩
      simpa [hna] using ht
  · intro id
    refine edgesWellFormed_congr s _ ?_ ?_ hwf <;>
      · unfold toggleNodeCollapse
        split <;> rfl
  · intro a b
    unfold replaceNodeData
    cases hfa : s.nodes.find? (fun n => n.id == a) with
    | none => exact hwf
    | some na =>
        cases hfb : s.nodes.find? (fun n => n.id == b) with
        | none => exact hwf
        | some nb =>
            refine edgesWellFormed_congr s _ rfl ?_ hwf
            exact nodeIds_map_of_id_preserving s.nodes _
              (fun n => by
                split
                · rfl
                · split <;> rfl)
  · intro rx emp e he
    have h := hwf e he
    have hsub : ∀ a, a ∈ s.nodes.map (fun n => n.id) →
        a ∈ (addEmployee rx emp none s).nodes.map (fun n => n.id) := by
      intro a ha
      show a ∈ (s.nodes ++ ([_] : List Node)).map (fun n => n.id)
      rw [List.map_append]
      exact List.mem_append_left _ ha
    exact ⟨hsub _ h.1, hsub _ h.2⟩
  · intro rx emp pid hpid e he
    have hsub : ∀ a, a ∈ s.nodes.map (fun n => n.id) →
        a ∈ (addEmployee rx emp (some pid) s).nodes.map
          (fun n => n.id) := by
      intro a ha
      show a ∈ (s.nodes ++ ([_] : List Node)).map (fun n => n.id)
      rw [List.map_append]
      exact List.mem_append_left _ ha
    have hlast : emp.id ∈ (addEmployee rx emp (some pid) s).nodes.map
        (fun n => n.id) := by
      show emp.id ∈ (s.nodes ++ ([_] : List Node)).map (fun n => n.id)
      rw [List.map_append]
      exact List.mem_append_right _ (by simp)
    rcases List.mem_append.1 he with he' | he'
    · have h := hwf e he'
      exact ⟨hsub _ h.1, hsub _ h.2⟩
    · have he2 : e = ⟨"e" ++ pid ++ "-" ++ emp.id, pid, emp.id⟩ := by
        simpa using he'
      subst he2
      exact ⟨hsub _ hpid, hlast⟩

/-- Claim C8 (counterexample): the vacant sentinel payload written onto
the source node does not have an empty name — it has the placeholder
name `空職位` ("vacant position").  After `replaceNodeData "1" "2"` on
`exC8state` the两 payload names are `空職位` and `N1`, and `空職位` is
not the empty string.  Moreover, when source and target coincide the
source is NOT vacated at all: `replaceNodeData "1" "1"` leaves the
state unchanged, so the "source becomes the vacant sentinel" part also
needs sourceId ≠ targetId. -/
theorem replace_vacant_name_is_placeholder :
    ((replaceNodeData "1" "2" exC8state).nodes.map
      (fun n => n.data.name)) = ["空職位", "N1"] ∧
    "空職位" ≠ "" ∧
    replaceNodeData "1" "1" exC8state = exC8state := by
  refine ⟨by decide, by decide, by decide⟩

/-- Claim C8 (amended): after `replaceNodeData a b` on a state
containing distinct ids `a ≠ b`: the target's payload equals the
source's pre-replace payload with the target's own id in the payload's
id field; the source's payload equals the vacant sentinel (placeholder
name/title/department `空職位`/`待分配`/`待分配`, empty contact, with
the source's pre-replace level unchanged); edges and collapse state do
not change; nodes other than source and target survive unchanged; and
if either id is missing the operation is a silent no-op. -/
theorem replaceNodeData_spec (s : OrgChartState) (a b : String)
    (na nb : Node) (hne : a ≠ b)
    (ha : s.nodes.find? (fun n => n.id == a) = some na)
    (hb : s.nodes.find? (fun n => n.id == b) = some nb) :
    ((replaceNodeData a b s).nodes.find? (fun n => n.id == b)).map
        (fun n => n.data) = some { na.data with id := b } ∧
    ((replaceNodeData a b s).nodes.find? (fun n => n.id == a)).map
        (fun n => n.data) = some (vacantData a na.data.level) ∧
    (replaceNodeData a b s).edges = s.edges ∧
    (replaceNodeData a b s).collapsedNodes = s.collapsedNodes ∧
    (∀ n ∈ s.nodes, n.id ≠ a → n.id ≠ b →
      n ∈ (replaceNodeData a b s).nodes) ∧
    (∀ x y, s.nodes.find? (fun n => n.id == x) = none ∨
        s.nodes.find? (fun n => n.id == y) = none →
      replaceNodeData x y s = s) := by
  have hna : na.id = a := by simpa using List.find?_some ha
  have hnb : nb.id = b := by simpa using List.find?_some hb
  have hrepl : replaceNodeData a b s = { s with
      nodes := s.nodes.map (fun node =>
        if node.id = b then { node with data := { na.data with id := b } }
        else if node.id = a then
          { node with data := vacantData a na.data.level }
        else node) } := by
    unfold replaceNodeData
    rw [ha, hb]
  set f : Node → Node := fun node =>
    if node.id = b then { node with data := { na.data with id := b } }
    else if node.id = a then
      { node with data := vacantData a na.data.level }
    else node with hfdef
  have hfid : ∀ n, (f n).id = n.id := by
    intro n
    rw [hfdef]
    dsimp only
    split
    · rfl
    · split <;> rfl
  have hfind : ∀ (x : String), (replaceNodeData a b s).nodes.find?
      (fun n => n.id == x) =
      (s.nodes.find? (fun n => n.id == x)).map f := by
    intro x
    rw [hrepl]
    show (s.nodes.map f).find? (fun n => n.id == x) = _
    rw [find?_map_comm]
    have hpred : (fun n : Node => ((f n).id == x)) =
        (fun n : Node => (n.id == x)) := by
      funext n
      rw [hfid n]
    rw [hpred]
  refine ⟨?_, ?_, by rw [hrepl], by rw [hrepl], ?_, ?_⟩
  · rw [hfind b, hb]
    have : f nb = { nb with data := { na.data with id := b } } := by
      rw [hfdef]
      simp [hnb]
    simp [this]
  · rw [hfind a, ha]
    have : f na = { na with data := vacantData a na.data.level } := by
      rw [hfdef]
      simp [hna, hne]
    simp [this]
  · intro n hn h1 h2
    have : f n = n := by
      rw [hfdef]
      simp [h1, h2]
    rw [hrepl]
    show n ∈ s.nodes.map f
    exact this ▸ List.mem_map_of_mem f hn
  · intro x y hxy
    unfold replaceNodeData
    rcases hxy with h1 | h1
    · rw [h1]
    · rw [h1]
      cases s.nodes.find? (fun n => n.id == x) <;> rfl

/-- Claim C10 (counterexample): `replaceNodeData x x` is not the
identity on every state containing `x`.  If the node's payload carries
a foreign id (`exMismatchedState`: node `1` holding payload id `2`),
the target branch overwrites the payload id with `1`; and if two node
entries share the id `1` (`exDuplicateState`), the second entry's
payload is overwritten with the first one's.  In both states the call
changes the state. -/
theorem replace_self_not_identity_in_general :
    replaceNodeData "1" "1" exMismatchedState ≠ exMismatchedState ∧
    replaceNodeData "1" "1" exDuplicateState ≠ exDuplicateState := by
  constructor <;> decide

/-- Claim C10 (amended): on states satisfying the store's integrity
invariants — every payload's id field equals its node's id, and node
ids are unique — `replaceNodeData x x` with `x` present leaves the
whole state unchanged: the target branch of the per-node update takes
precedence over the source branch, so the node keeps its payload and is
in particular not reset to the vacant sentinel. -/
theorem replace_self_identity (s : OrgChartState) (x : String)
    (hwf : ∀ n ∈ s.nodes, n.data.id = n.id)
    (hnd : (s.nodes.map (fun n => n.id)).Nodup)
    (hx : x ∈ s.nodes.map (fun n => n.id)) :
    replaceNodeData x x s = s := by
  have hsome : (s.nodes.find? (fun n => n.id == x)).isSome := by
    rw [List.find?_isSome]
    rcases List.mem_map.1 hx with ⟨n, hn, hid⟩
    exact ⟨n, hn, by simp [hid]⟩
  obtain ⟨nx, hfx⟩ := Option.isSome_iff_exists.1 hsome
  have hnxmem : nx ∈ s.nodes := List.mem_of_find?_eq_some hfx
  have hnxid : nx.id = x := by simpa using List.find?_some hfx
  unfold replaceNodeData
  rw [hfx]
  show ({ s with
      nodes := s.nodes.map (fun node =>
        if node.id = x then { node with data := { nx.data with id := x } }
        else if node.id = x then
          { node with data := vacantData x nx.data.level }
        else node) } : OrgChartState) = s
  have hmap : s.nodes.map (fun node =>
      if node.id = x then { node with data := { nx.data with id := x } }
      else if node.id = x then
        { node with data := vacantData x nx.data.level }
      else node) = s.nodes := by
    have hpt : ∀ n ∈ s.nodes,
        (if n.id = x then { n with data := { nx.data with id := x } }
         else if n.id = x then
           { n with data := vacantData x nx.data.level }
         else n) = n := by
      intro n hn
      by_cases h : n.id = x
      · have hnnx : n = nx :=
          List.inj_on_of_nodup_map hnd hn hnxmem (by rw [h, hnxid])
        subst hnnx
        have hdid : n.data.id = x := by rw [hwf n hn, h]
        rw [if_pos h]
        rw [show ({ n.data with id := x } : Employee) = n.data from by
          rw [← hdid]]
      · rw [if_neg h, if_neg h]
    rw [List.map_congr_left hpt]
    exact List.map_id _
  rw [hmap]

/-- Claim C9: `swapData` (modelled from the spec, absent from the
source) exchanges the two nodes' payloads in full with each node
retaining its own id and its own level (the level stays with the tree
slot), is a silent no-op if either id is missing, and — on states
satisfying the store's integrity invariants (payload ids match node
ids, node ids unique) — is self-inverse: applying it twice restores
the entire state, in particular both payloads and both levels. -/
theorem swapData_spec (s : OrgChartState) (a b : String) (na nb : Node)
    (hwf : ∀ n ∈ s.nodes, n.data.id = n.id)
    (hnd : (s.nodes.map (fun n => n.id)).Nodup)
    (ha : s.nodes.find? (fun n => n.id == a) = some na)
    (hb : s.nodes.find? (fun n => n.id == b) = some nb) :
    ((swapData a b s).nodes.find? (fun n => n.id == a)).map
        (fun n => n.data) =
      some { nb.data with id := a, level := na.data.level } ∧
    ((swapData a b s).nodes.find? (fun n => n.id == b)).map
        (fun n => n.data) =
      some { na.data with id := b, level := nb.data.level } ∧
    (swapData a b s).edges = s.edges ∧
    (swapData a b s).collapsedNodes = s.collapsedNodes ∧
    swapData a b (swapData a b s) = s ∧
    (∀ x y, s.nodes.find? (fun n => n.id == x) = none ∨
        s.nodes.find? (fun n => n.id == y) = none →
      swapData x y s = s) := by
  have hna : na.id = a := by simpa using List.find?_some ha
  have hnb : nb.id = b := by simpa using List.find?_some hb
  have hnamem : na ∈ s.nodes := List.mem_of_find?_eq_some ha
  have hnbmem : nb ∈ s.nodes := List.mem_of_find?_eq_some hb
  have hswap : swapData a b s = { s with
      nodes := s.nodes.map (fun node =>
        if node.id = a then
          { node with data :=
              { nb.data with id := a, level := na.data.level } }
        else if node.id = b then
          { node with data :=
              { na.data with id := b, level := nb.data.level } }
        else node) } := by
    unfold swapData
    rw [ha, hb]
  set f : Node → Node := fun node =>
    if node.id = a then
      { node with data := { nb.data with id := a, level := na.data.level } }
    else if node.id = b then
      { node with data := { na.data with id := b, level := nb.data.level } }
    else node with hfdef
  have hfid : ∀ n, (f n).id = n.id := by
    intro n
    rw [hfdef]
    dsimp only
    split
    · rfl
    · split <;> rfl
  have hpred : ∀ x : String, (fun n : Node => ((f n).id == x)) =
      (fun n : Node => (n.id == x)) := by
    intro x
    funext n
    rw [hfid n]
  have hfna : f na = { na with data :=
      { nb.data with id := a, level := na.data.level } } := by
    rw [hfdef]
    simp [hna]
  have hfnb : f nb = { nb with data :=
      { na.data with id := b, level := nb.data.level } } := by
    rw [hfdef]
    by_cases hab : a = b
    · subst hab
      rw [ha] at hb
      have heq : na = nb := Option.some.inj hb
      subst heq
      simp [hna]
    · have h2 : ¬ b = a := fun h => hab h.symm
      simp [hnb, h2]
  have hfind : ∀ (x : String),
      (s.nodes.map f).find? (fun n => n.id == x) =
        (s.nodes.find? (fun n => n.id == x)).map f := by
    intro x
    rw [find?_map_comm, hpred x]
  refine ⟨?_, ?_, by rw [hswap], by rw [hswap], ?_, ?_⟩
  · rw [hswap]
    show ((s.nodes.map f).find? (fun n => n.id == a)).map
      (fun n => n.data) = _
    rw [hfind a, ha]
    simp [hfna]
  · rw [hswap]
    show ((s.nodes.map f).find? (fun n => n.id == b)).map
      (fun n => n.data) = _
    rw [hfind b, hb]
    simp [hfnb]
  · rw [hswap]
    unfold swapData
    rw [show (({ s with nodes := s.nodes.map f } :
        OrgChartState)).nodes.find? (fun n => n.id == a) =
        some (f na) from by rw [hfind a, ha]; rfl,
      show (({ s with nodes := s.nodes.map f } :
        OrgChartState)).nodes.find? (fun n => n.id == b) =
        some (f nb) from by rw [hfind b, hb]; rfl]
    show ({ s with
      nodes := (s.nodes.map f).map (fun node =>
        if node.id = a then
          { node with data :=
              { (f nb).data with id := a, level := (f na).data.level } }
        else if node.id = b then
          { node with data :=
              { (f na).data with id := b, level := (f nb).data.level } }
        else node) } : OrgChartState) = s
    rw [List.map_map]
    have hpt : ∀ n ∈ s.nodes,
        ((fun node =>
          if node.id = a then
            { node with data :=
                { (f nb).data with id := a, level := (f na).data.level } }
          else if node.id = b then
            { node with data :=
                { (f na).data with id := b, level := (f nb).data.level } }
          else node) ∘ f) n = n := by
      intro n hn
      simp only [Function.comp_apply]
      by_cases h1 : n.id = a
      · have hn_na : n = na :=
          List.inj_on_of_nodup_map hnd hn hnamem (by rw [h1, hna])
        subst hn_na
        rw [hfna]
        have hida : ({ n with data :=
            { nb.data with id := a, level := n.data.level } } :
              Node).id = a := by
          simpa using h1
        rw [if_pos hida, hfnb]
        have hdid : n.data.id = a := by rw [hwf n hn, h1]
        show ({ n with data :=
          { n.data with id := a, level := n.data.level } } : Node) = n
        rw [← hdid]
      · by_cases h2 : n.id = b
        · have hn_nb : n = nb :=
            List.inj_on_of_nodup_map hnd hn hnbmem (by rw [h2, hnb])
          subst hn_nb
          rw [hfnb]
          have hnab : ¬ ({ n with data :=
              { na.data with id := b, level := n.data.level } } :
                Node).id = a := by
            simpa using h1
          have hidb : ({ n with data :=
              { na.data with id := b, level := n.data.level } } :
                Node).id = b := by
            simpa using h2
          rw [if_neg hnab, if_pos hidb, hfna]
          have hdid : n.data.id = b := by rw [hwf n hn, h2]
          show ({ n with data :=
            { n.data with id := b, level := n.data.level } } : Node) = n
          rw [← hdid]
        · have hfn : f n = n := by
            rw [hfdef]
            simp [h1, h2]
          rw [hfn, if_neg h1, if_neg h2]
    rw [List.map_congr_left hpt]
    exact congrArg (fun l => ({ s with nodes := l } : OrgChartState))
      (List.map_id s.nodes)
  · intro x y hxy
    unfold swapData
    rcases hxy with h1 | h1
    · rw [h1]
    · rw [h1]
      cases s.nodes.find? (fun n => n.id == x) <;> rfl

/-! ## Witnesses -/

/-- Witness for the amended claim C1, at the two-leaf tree `p[u, v]`:
the hypotheses hold and the parent sits at x = 650, the centre of the
two children's span `[0, 1300]`. -/
theorem setPositions_parent_centered_witness :
    (treeIds (TreeNode.mk "p" [TreeNode.mk "u" [],
      TreeNode.mk "v" []])).Nodup ∧
    posLookup (setPositions ["p", "u", "v"]
      (TreeNode.mk "p" [TreeNode.mk "u" [], TreeNode.mk "v" []]) 0 0)
      "p" = some (650, 0) := by
  have h := setPositions_parent_centered ["p", "u", "v"] "p"
    [TreeNode.mk "u" [], TreeNode.mk "v" []] 0 0 (by decide) (by decide)
  refine ⟨by decide, ?_⟩
  rw [h.1]
  norm_num [calculateWidth, calculateWidthList, horizontalSpacing]

/-- Witness for claim C2, at two leaf siblings `u`, `v` laid out from
offset 0: `u`'s entry is at x = 325, `v`'s at x = 975, and the widened
extents 325 + 120 < 975 - 120 stay disjoint. -/
theorem sibling_subtree_extents_disjoint_witness :
    (("u", (325 : ℚ), (0 : ℚ)) ∈ setPositions ["u", "v"]
      (TreeNode.mk "u" [])
      ((0 : ℚ) + (calculateWidthList [] : ℚ) * horizontalSpacing) 0) ∧
    (325 : ℚ) + cardWidth / 2 < (975 : ℚ) - cardWidth / 2 := by
  have hp : ("u", (325 : ℚ), (0 : ℚ)) ∈ setPositions ["u", "v"]
      (TreeNode.mk "u" [])
      ((0 : ℚ) + (calculateWidthList [] : ℚ) * horizontalSpacing) 0 := by
    norm_num [setPositions, setChildrenPositions, calculateWidth,
      calculateWidthList, horizontalSpacing]
  have hq : ("v", (975 : ℚ), (0 : ℚ)) ∈ setPositions ["u", "v"]
      (TreeNode.mk "v" [])
      ((0 : ℚ) + (calculateWidthList ([] ++ TreeNode.mk "u" [] :: []) :
        ℚ) * horizontalSpacing) 0 := by
    norm_num [setPositions, setChildrenPositions, calculateWidth,
      calculateWidthList, horizontalSpacing]
  exact ⟨hp, (sibling_subtree_extents_disjoint ["u", "v"] [] [] []
    (TreeNode.mk "u" []) (TreeNode.mk "v" []) 0 0 _ _ hp hq).2.2⟩

/-- Witness for claim C5: the two-node state `1 → 2` has acyclic edges,
and deleting the missing id `x` is a complete no-op. -/
theorem deleteEmployee_spec_witness :
    acyclicEdges exTwoNodeState.edges ∧
    deleteEmployee "x" exTwoNodeState = exTwoNodeState := by
  have hstep : ∀ u v, stepRel exTwoNodeState.edges u v →
      u = "1" ∧ v = "2" := by
    intro u v hv
    obtain ⟨e, he, hs, ht⟩ := hv
    have he2 : e = exEdge "1" "2" := by
      simpa [exTwoNodeState] using he
    subst he2
    exact ⟨hs.symm, ht.symm⟩
  have hac : acyclicEdges exTwoNodeState.edges := by
    intro v hv
    have htar : ∀ u w, Relation.TransGen
        (stepRel exTwoNodeState.edges) u w → w = "2" := by
      intro u w h
      induction h with
      | single h' => exact (hstep _ _ h').2
      | tail _ h' _ => exact (hstep _ _ h').2
    have hsrc : ∀ u w, Relation.TransGen
        (stepRel exTwoNodeState.edges) u w → u = "1" := by
      intro u w h
      induction h with
      | single h' => exact (hstep _ _ h').1
      | tail h' _ ih => exact ih
    exact absurd ((hsrc v v hv).symm.trans (htar v v hv)) (by decide)
  exact ⟨hac, (deleteEmployee_spec exTwoNodeState "x" hac).2.2.2.1
    (by decide) (by unfold edgesWellFormed; decide)⟩

/-- Witness for the amended claim C6: inserting a second employee with
the already-present id `1` grows the node count from 1 to 2. -/
theorem addEmployee_appends_unconditionally_witness :
    ("1" ∈ exC6state.nodes.map (fun n => n.id)) ∧
    (addEmployee 0 (exEmployee "1" 2) none exC6state).nodes.length =
      exC6state.nodes.length + 1 :=
  ⟨by decide, (addEmployee_appends_unconditionally 0 (exEmployee "1" 2)
    none exC6state (by decide)).1⟩

/-- Witness for the amended claim C7: the two-node state satisfies the
edge invariant and keeps satisfying it after a cascading delete. -/
theorem mutations_preserve_edge_invariant_witness :
    edgesWellFormed exTwoNodeState ∧
    edgesWellFormed (deleteEmployee "2" exTwoNodeState) := by
  have hwf : edgesWellFormed exTwoNodeState := by
    unfold edgesWellFormed
    decide
  exact ⟨hwf, (mutations_preserve_edge_invariant exTwoNodeState
    hwf).2.1 "2"⟩

/-- Witness for the amended claim C8: replacing `1` onto `2` in the
two-employee state keeps the edge list unchanged. -/
theorem replaceNodeData_spec_witness :
    (exC8state.nodes.find? (fun n => n.id == "1") = some (exNode "1")) ∧
    (replaceNodeData "1" "2" exC8state).edges = exC8state.edges := by
  have h := replaceNodeData_spec exC8state "1" "2" (exNode "1")
    (exNode "2") (by decide) (by decide) (by decide)
  exact ⟨by decide, h.2.2.1⟩

/-- Witness for claim C9: in the two-employee state the modelled
`swapData` applied twice restores the state exactly. -/
theorem swapData_spec_witness :
    (∀ n ∈ exC8state.nodes, n.data.id = n.id) ∧
    swapData "1" "2" (swapData "1" "2" exC8state) = exC8state := by
  have h := swapData_spec exC8state "1" "2" (exNode "1") (exNode "2")
    (by decide) (by decide) (by decide) (by decide)
  exact ⟨by decide, h.2.2.2.2.1⟩

/-- Witness for the amended claim C10: on the integrity-conforming
two-employee state, `replaceNodeData "1" "1"` is the identity. -/
theorem replace_self_identity_witness :
    ("1" ∈ exC8state.nodes.map (fun n => n.id)) ∧
    replaceNodeData "1" "1" exC8state = exC8state :=
  ⟨by decide, replace_self_identity exC8state "1" (by decide)
    (by decide) (by decide)⟩

end OrgChart
